import Mathlib

/-!
Verification of the session-statistics aggregator of the k9-smart-fetch
front-end (src/App.jsx).

The aggregator is a pipeline of pure functions over fetched training-session
rows: a success classifier (`isSuccessResult`, App.jsx:1670), a condition-value
extractor (`getConditionValue`, App.jsx:1674), a numeric summary
(`computeNumericStats`, App.jsx:1682), a histogram binner
(`buildConditionDistributions`, App.jsx:1713) and a one-pass aggregate view
(`processSessions`, App.jsx:2341, with `buildSeries`, App.jsx:2473, and the
ranking sorts at App.jsx:2264).

JavaScript numbers are embedded as rationals (`ℚ`), with the non-finite values
NaN and ±Infinity represented explicitly where they can occur (`JsNum`).
JavaScript's built-in `parseFloat` is not part of the repository, so it is kept
abstract: every definition and theorem that needs it is parametrised by an
arbitrary `parse : String → JsNum`.
-/

/-- A JavaScript number: a finite value, `NaN`, or a signed infinity. -/
inductive JsNum where
  | fin (q : ℚ)
  | nan
  | inf
  | negInf
deriving DecidableEq

/-- A JSON value stored under a key of a session's `conditions` mapping:
a number, a string, or anything else (null / boolean / object), which the
code's `Number.isFinite` test rejects without coercion. -/
inductive JsVal where
  | num (x : JsNum)
  | str (s : String)
  | other
deriving DecidableEq

/-- The joined `dogs` row carried on a session (id / name / dog_code). -/
structure DogRef where
  id : Option String
  name : Option String
  dog_code : Option String

/-- The `type` JSON blob of a session; only its `scent` label is read. -/
structure TypeObj where
  scent : Option String

/-- A fetched training-session row, restricted to the fields the aggregator
reads: `result`, `dog_id`, the joined `dogs` row, `conditions` and `type`. -/
structure Session where
  result : Option String
  dog_id : String
  dogs : Option DogRef
  conditions : String → Option JsVal
  type : Option TypeObj

/-- JavaScript `x || dflt` for a string-or-missing `x`: the default is taken
when `x` is absent or the empty string (both falsy). -/
def orFalsy (x : Option String) (dflt : String) : String :=
  match x with
  | some s => if s = "" then dflt else s
  | none => dflt

/-- JavaScript `String.prototype.toLowerCase`, modelled as lowering every
character of the string. -/
def jsToLower (s : String) : String :=
  ⟨s.data.map Char.toLower⟩

/-- App.jsx:1670-1671 — `String(result || "").toLowerCase() === "success"`. -/
def isSuccessResult (result : Option String) : Bool :=
  jsToLower (orFalsy result "") == "success"

/-- App.jsx:1674-1679 — read `conditions[key]`; a string is passed through
`parseFloat`; the value is returned only when `Number.isFinite` holds,
otherwise `null` (here `none`). -/
def getConditionValue (parse : String → JsNum) (session : Session)
    (key : String) : Option ℚ :=
  match session.conditions key with
  | some (JsVal.num (JsNum.fin q)) => some q
  | some (JsVal.str t) =>
      match parse t with
      | JsNum.fin q => some q
      | _ => none
  | _ => none

/-- The `{ mean, median, mode }` record of App.jsx:1709. -/
structure NumericStats where
  mean : ℚ
  median : ℚ
  mode : ℚ
deriving DecidableEq

/-- JavaScript `values.sort((a, b) => a - b)`: an ascending sort. -/
def jsSortAsc (values : List ℚ) : List ℚ :=
  values.mergeSort (fun a b => decide (a ≤ b))

/-- One iteration of the mode loop of App.jsx:1700-1707. The state is the
list of already-processed values (standing in for the frequency `Map`, which
stores exactly their multiplicities), the current `mode` and `bestCount`. -/
def modeStep : List ℚ × ℚ × ℕ → ℚ → List ℚ × ℚ × ℕ
  | (seen, mode, best), v =>
    let c := seen.count v + 1
    if c > best then (v :: seen, v, c) else (v :: seen, mode, best)

/-- App.jsx:1682-1710 — mean, median and mode of a list of numbers;
`null` (here `none`) on an empty input. -/
def computeNumericStats (values : List ℚ) : Option NumericStats :=
  if values = [] then none
  else
    let sorted := jsSortAsc values
    let n := sorted.length
    let sum := sorted.foldl (fun acc v => acc + v) 0
    let mean := sum / (n : ℚ)
    let median :=
      if n % 2 = 1 then sorted.getD ((n - 1) / 2) 0
      else (sorted.getD (n / 2 - 1) 0 + sorted.getD (n / 2) 0) / 2
    let modeResult := sorted.foldl modeStep (([] : List ℚ), sorted.getD 0 0, 0)
    some ⟨mean, median, modeResult.2.1⟩

/-- Case-insensitive string equality, the comparison policy named by the
specification for the record classifier. -/
def caseInsensitiveEq (a b : String) : Prop :=
  jsToLower a = jsToLower b

/-- C4: the record classifier returns success iff the result field equals the
literal token "success" case-insensitively; a missing value and a value with
trailing whitespace are classified failure, and the classifier is total. -/
theorem isSuccessResult_spec :
    (∀ r : Option String,
      isSuccessResult r = true ↔ caseInsensitiveEq (r.getD "") "success")
    ∧ isSuccessResult (some "SUCCESS") = true
    ∧ isSuccessResult (some "Success") = true
    ∧ isSuccessResult (some "success ") = false
    ∧ isSuccessResult none = false := by
  refine ⟨?_, by decide, by decide, by decide, by decide⟩
  intro r
  have hlit : jsToLower "success" = "success" := by decide
  cases r with
  | none =>
      simp only [isSuccessResult, orFalsy, caseInsensitiveEq, Option.getD, hlit]
      decide
  | some s =>
      by_cases hs : s = ""
      · subst hs
        simp only [isSuccessResult, orFalsy, caseInsensitiveEq, Option.getD, hlit]
        decide
      · simp only [isSuccessResult, orFalsy, caseInsensitiveEq, Option.getD,
          if_neg hs, hlit, beq_iff_eq]

/-! ### Facts about the ascending sort used throughout the aggregator -/

theorem jsSortAsc_perm (l : List ℚ) : List.Perm (jsSortAsc l) l :=
  List.mergeSort_perm l _

theorem jsSortAsc_length (l : List ℚ) : (jsSortAsc l).length = l.length :=
  (jsSortAsc_perm l).length_eq

theorem jsSortAsc_pairwise (l : List ℚ) : (jsSortAsc l).Pairwise (· ≤ ·) := by
  have h : (l.mergeSort (fun a b : ℚ => decide (a ≤ b))).Pairwise
      (fun a b : ℚ => decide (a ≤ b) = true) := by
    apply List.sorted_mergeSort
    · intro a b c hab hbc
      simp only [decide_eq_true_eq] at *
      exact le_trans hab hbc
    · intro a b
      simp only [Bool.or_eq_true, decide_eq_true_eq]
      exact le_total a b
  exact h.imp (fun {a b} hab => by simpa using hab)

theorem jsSortAsc_eq_insertionSort (l : List ℚ) :
    jsSortAsc l = List.insertionSort (· ≤ ·) l := by
  have hp : List.Perm (jsSortAsc l) (List.insertionSort (· ≤ ·) l) :=
    (jsSortAsc_perm l).trans (List.perm_insertionSort _ l).symm
  have h1 : List.Sorted (· ≤ ·) (jsSortAsc l) := jsSortAsc_pairwise l
  have h2 : List.Sorted (· ≤ ·) (List.insertionSort (· ≤ ·) l) :=
    List.sorted_insertionSort _ l
  exact List.eq_of_perm_of_sorted hp h1 h2

/-! ### C2: mean and median -/

/-- Modelled from the spec: ascending sorting of a value collection
(§4.3 "sort ascending"). -/
def specSorted (values : List ℚ) : List ℚ :=
  List.insertionSort (· ≤ ·) values

/-- Modelled from the spec: "Mean: arithmetic sum divided by count." -/
def specMean (values : List ℚ) : ℚ :=
  values.sum / (values.length : ℚ)

/-- Modelled from the spec: "Median: sort ascending; odd count → middle
element; even count → average of the two middle elements." -/
def specMedian (values : List ℚ) : ℚ :=
  let s := specSorted values
  let n := values.length
  if n % 2 = 1 then s.getD ((n - 1) / 2) 0
  else (s.getD (n / 2 - 1) 0 + s.getD (n / 2) 0) / 2

/-- C2: on every non-empty collection, the numeric summary's mean is the
arithmetic sum divided by the count and its median is the middle element of
the ascending sort (average of the two middle elements for even counts). -/
theorem computeNumericStats_mean_median (values : List ℚ) (h : values ≠ []) :
    (computeNumericStats values).map NumericStats.mean = some (specMean values)
    ∧ (computeNumericStats values).map NumericStats.median
        = some (specMedian values) := by
  have hsum : (jsSortAsc values).foldl (fun acc v => acc + v) 0
      = values.sum := by
    have h1 : (jsSortAsc values).sum = values.sum := (jsSortAsc_perm values).sum_eq
    rw [← h1, List.sum_eq_foldl]
  have hlen := jsSortAsc_length values
  constructor
  · simp only [computeNumericStats, if_neg h, Option.map_some', specMean,
      hlen, hsum]
  · simp only [computeNumericStats, if_neg h, Option.map_some', specMedian,
      specSorted, ← jsSortAsc_eq_insertionSort, hlen]

/-- Witness for C2 at the spec's own example `[1, 2, 3, 4]`. -/
theorem computeNumericStats_mean_median_witness :
    (([1, 2, 3, 4] : List ℚ) ≠ [])
    ∧ ((computeNumericStats [1, 2, 3, 4]).map NumericStats.mean
          = some (specMean [1, 2, 3, 4])
        ∧ (computeNumericStats [1, 2, 3, 4]).map NumericStats.median
          = some (specMedian [1, 2, 3, 4])) :=
  ⟨by decide, computeNumericStats_mean_median [1, 2, 3, 4] (by decide)⟩

/-! ### C3: the mode

The mode loop of App.jsx:1697-1707 walks the sorted values, keeping the first
value whose running frequency strictly exceeds every frequency seen so far.
`modeFold_spec` is its loop invariant: the current `best` bounds every
multiplicity of the processed prefix, and `mode` is the least value attaining
it. -/

theorem modeFold_spec (l : List ℚ) :
    ∀ (seen : List ℚ) (mode : ℚ) (best : ℕ),
    l.Pairwise (· ≤ ·) →
    (∀ x ∈ seen, ∀ y ∈ l, x ≤ y) →
    (∀ v, seen.count v ≤ best) →
    (seen = [] → best = 0) →
    (seen ≠ [] → seen.count mode = best ∧ mode ∈ seen ∧
        ∀ v, seen.count v = best → mode ≤ v) →
    (∀ v, (seen ++ l).count v ≤ (l.foldl modeStep (seen, mode, best)).2.2)
    ∧ (seen ++ l ≠ [] →
        (seen ++ l).count (l.foldl modeStep (seen, mode, best)).2.1
            = (l.foldl modeStep (seen, mode, best)).2.2
        ∧ (l.foldl modeStep (seen, mode, best)).2.1 ∈ seen ++ l
        ∧ ∀ v, (seen ++ l).count v = (l.foldl modeStep (seen, mode, best)).2.2
            → (l.foldl modeStep (seen, mode, best)).2.1 ≤ v) := by
  induction l with
  | nil =>
      intro seen mode best _ _ hbest _ hmode
      simp only [List.foldl_nil, List.append_nil]
      exact ⟨hbest, fun hne => hmode hne⟩
  | cons v rest ih =>
      intro seen mode best hsort hle hbest hnil hmode
      obtain ⟨hv, hrest⟩ := List.pairwise_cons.mp hsort
      have hle' : ∀ x ∈ v :: seen, ∀ y ∈ rest, x ≤ y := by
        intro x hx y hy
        rcases List.mem_cons.mp hx with hxv | hxs
        · exact hxv ▸ hv y hy
        · exact hle x hxs y (List.mem_cons_of_mem v hy)
      have hperm : List.Perm (seen ++ v :: rest) (v :: (seen ++ rest)) :=
        List.perm_middle
      have hcnt_eq : ∀ u : ℚ, (seen ++ v :: rest).count u
          = ((v :: seen) ++ rest).count u := fun u => hperm.count_eq u
      have hmem_eq : ∀ u : ℚ, u ∈ seen ++ v :: rest ↔ u ∈ (v :: seen) ++ rest :=
        fun u => hperm.mem_iff
      have hne2 : (v :: seen) ++ rest ≠ [] := by simp
      rw [List.foldl_cons]
      by_cases hgt : seen.count v + 1 > best
      · have hstep : modeStep (seen, mode, best) v
            = (v :: seen, v, seen.count v + 1) := by
          simp only [modeStep, if_pos hgt]
        rw [hstep]
        have hbest' : ∀ u, (v :: seen).count u ≤ seen.count v + 1 := by
          intro u
          by_cases huv : u = v
          · subst huv; rw [List.count_cons_self]
          · rw [List.count_cons_of_ne huv]
            have := hbest u
            omega
        have hmode' : (v :: seen) ≠ [] → (v :: seen).count v = seen.count v + 1
            ∧ v ∈ v :: seen
            ∧ ∀ u, (v :: seen).count u = seen.count v + 1 → v ≤ u := by
          intro _
          refine ⟨List.count_cons_self v seen, List.mem_cons_self v seen, ?_⟩
          intro u hu
          by_cases huv : u = v
          · exact le_of_eq huv.symm
          · exfalso
            rw [List.count_cons_of_ne huv] at hu
            have h1 := hbest u
            omega
        have hres := ih (v :: seen) v (seen.count v + 1) hrest hle' hbest'
          (by intro hcon; exact absurd hcon (by simp)) hmode'
        obtain ⟨hub, hcond⟩ := hres
        obtain ⟨hcnt, hmem, hmin⟩ := hcond hne2
        refine ⟨?_, ?_⟩
        · intro u
          rw [hcnt_eq u]
          exact hub u
        · intro _
          refine ⟨?_, ?_, ?_⟩
          · rw [hcnt_eq _]
            exact hcnt
          · exact (hmem_eq _).mpr hmem
          · intro u hu
            apply hmin
            rw [← hcnt_eq u]
            exact hu
      · have hstep : modeStep (seen, mode, best) v = (v :: seen, mode, best) := by
          simp only [modeStep, if_neg hgt]
        rw [hstep]
        have hseen_ne : seen ≠ [] := by
          intro hcon
          have h0 := hnil hcon
          rw [hcon] at hgt
          simp [h0] at hgt
        obtain ⟨hcm, hmm, hmn⟩ := hmode hseen_ne
        have hmv : mode ≠ v := by
          intro hcon
          rw [hcon] at hcm
          omega
        have hbest' : ∀ u, (v :: seen).count u ≤ best := by
          intro u
          by_cases huv : u = v
          · subst huv
            rw [List.count_cons_self]
            omega
          · rw [List.count_cons_of_ne huv]
            exact hbest u
        have hmode' : (v :: seen) ≠ [] → (v :: seen).count mode = best
            ∧ mode ∈ v :: seen
            ∧ ∀ u, (v :: seen).count u = best → mode ≤ u := by
          intro _
          refine ⟨?_, List.mem_cons_of_mem v hmm, ?_⟩
          · rw [List.count_cons_of_ne hmv]
            exact hcm
          · intro u hu
            by_cases huv : u = v
            · subst huv
              exact hle mode hmm _ (List.mem_cons_self _ _)
            · apply hmn
              rw [List.count_cons_of_ne huv] at hu
              exact hu
        have hres := ih (v :: seen) mode best hrest hle' hbest'
          (by intro hcon; exact absurd hcon (by simp)) hmode'
        obtain ⟨hub, hcond⟩ := hres
        obtain ⟨hcnt, hmem, hmin⟩ := hcond hne2
        refine ⟨?_, ?_⟩
        · intro u
          rw [hcnt_eq u]
          exact hub u
        · intro _
          refine ⟨?_, ?_, ?_⟩
          · rw [hcnt_eq _]
            exact hcnt
          · exact (hmem_eq _).mpr hmem
          · intro u hu
            apply hmin
            rw [← hcnt_eq u]
            exact hu

/-- The property the specification asks of the mode: a value of maximal
multiplicity, and the least such value when several are tied. -/
def IsLeastMode (values : List ℚ) (m : ℚ) : Prop :=
  m ∈ values ∧ (∀ v, values.count v ≤ values.count m)
    ∧ ∀ v, values.count v = values.count m → m ≤ v

/-- C3: the numeric summary's mode has the highest occurrence count, and on
ties it is the smallest of the tied values (the first to reach the maximal
count in ascending order). -/
theorem computeNumericStats_mode (values : List ℚ) (h : values ≠ []) :
    ∃ m, (computeNumericStats values).map NumericStats.mode = some m
      ∧ IsLeastMode values m := by
  have hsne : jsSortAsc values ≠ [] := by
    intro hcon
    apply h
    have hl := jsSortAsc_length values
    rw [hcon] at hl
    exact List.length_eq_zero.mp hl.symm
  have hspec := modeFold_spec (jsSortAsc values) [] ((jsSortAsc values).getD 0 0) 0
    (jsSortAsc_pairwise values)
    (by intro x hx; exact absurd hx (List.not_mem_nil x))
    (by intro u; simp)
    (fun _ => rfl)
    (by intro hcon; exact absurd rfl hcon)
  rw [List.nil_append] at hspec
  obtain ⟨hub, hcond⟩ := hspec
  obtain ⟨hcnt, hmem, hmin⟩ := hcond hsne
  have hc : ∀ u : ℚ, (jsSortAsc values).count u = values.count u :=
    fun u => (jsSortAsc_perm values).count_eq u
  refine ⟨(List.foldl modeStep ([], (jsSortAsc values).getD 0 0, 0)
    (jsSortAsc values)).2.1, ?_, ?_, ?_, ?_⟩
  · simp only [computeNumericStats, if_neg h, Option.map_some']
  · exact (jsSortAsc_perm values).mem_iff.mp hmem
  · intro u
    rw [← hc, ← hc, hcnt]
    exact hub u
  · intro u hu
    apply hmin
    rw [hc u, ← hcnt, hc _]
    exact hu

/-- Witness for C3 at the spec's own tie-break example `[1, 1, 2, 2]`. -/
theorem computeNumericStats_mode_witness :
    (([1, 1, 2, 2] : List ℚ) ≠ [])
    ∧ ∃ m, (computeNumericStats [1, 1, 2, 2]).map NumericStats.mode = some m
        ∧ IsLeastMode [1, 1, 2, 2] m :=
  ⟨by decide, computeNumericStats_mode [1, 1, 2, 2] (by decide)⟩

/-! ### The histogram binner (App.jsx:1713-1788) -/

/-- JavaScript `Math.min(...vals)` on a non-empty spread. -/
def listMin : List ℚ → ℚ
  | [] => 0
  | v :: rest => rest.foldl min v

/-- JavaScript `Math.max(...vals)` on a non-empty spread. -/
def listMax : List ℚ → ℚ
  | [] => 0
  | v :: rest => rest.foldl max v

/-- JavaScript `x || d` for a finite number `x`: `d` exactly when `x = 0`
(`NaN` cannot arise here over `ℚ`). -/
def orZero (x d : ℚ) : ℚ :=
  if x = 0 then d else x

/-- JavaScript `q.toFixed(1)`: sign, then the magnitude rounded to one
decimal place, ties away from zero. -/
def toFixed1 (q : ℚ) : String :=
  let sign := if q < 0 then "-" else ""
  let n : ℕ := (⌊|q| * 10 + 1 / 2⌋).toNat
  sign ++ toString (n / 10) ++ "." ++ toString (n % 10)

/-- A bin accumulator of App.jsx:1743-1749 (`end` is a Lean keyword, so that
field is called `endB`). -/
structure BinAcc where
  start : ℚ
  endB : ℚ
  success : ℕ
  fail : ℕ
deriving DecidableEq

/-- One output bin `{ range, count }` of App.jsx:1772-1780. -/
structure BinOut where
  range : String
  count : ℕ
deriving DecidableEq

/-- The return shape of `buildConditionDistributions` (App.jsx:1782-1787). -/
structure Distributions where
  binsSuccess : List BinOut
  binsFail : List BinOut
  statsSuccess : Option NumericStats
  statsFail : Option NumericStats
deriving DecidableEq

/-- `bins[idx].fld += 1` for a field update `u`: the in-place increment of
App.jsx:1757-1765 as a functional update. -/
def bumpAt (u : BinAcc → BinAcc) (bins : List BinAcc) (idx : ℕ) : List BinAcc :=
  bins.set idx (u (bins.getD idx ⟨0, 0, 0, 0⟩))

/-- `bins[idx].success += 1` (App.jsx:1759). -/
def incSuccess : List BinAcc → ℕ → List BinAcc :=
  bumpAt (fun b => { b with success := b.success + 1 })

/-- `bins[idx].fail += 1` (App.jsx:1764). -/
def incFail : List BinAcc → ℕ → List BinAcc :=
  bumpAt (fun b => { b with fail := b.fail + 1 })

/-- App.jsx:1751-1755 — the bin index of a value: 0 for a single bin,
otherwise `floor((v - min) / step)` clamped into `[0, count - 1]`. -/
def getIndex (effectiveBinCount : ℕ) (mn step : ℚ) (v : ℚ) : ℕ :=
  if effectiveBinCount = 1 then 0
  else (max 0 (min ((effectiveBinCount : ℤ) - 1) ⌊(v - mn) / step⌋)).toNat

/-- App.jsx:1767-1770 — the range label of a bin: just the start for a single
bin, otherwise "start–end", each end to one decimal place. -/
def formatLabel (effectiveBinCount : ℕ) (b : BinAcc) : String :=
  if effectiveBinCount = 1 then toFixed1 b.start
  else toFixed1 b.start ++ "–" ++ toFixed1 b.endB

/-- App.jsx:1726-1787 — the core of `buildConditionDistributions`, operating
on the two already-extracted cohort value lists. -/
def buildCore (successVals failVals : List ℚ) (binCount : ℕ) : Distributions :=
  let allVals := successVals ++ failVals
  if allVals = [] then ⟨[], [], none, none⟩
  else
    let mn := listMin allVals
    let mx := listMax allVals
    let effectiveBinCount := if mn = mx then 1 else binCount
    let step : ℚ :=
      if effectiveBinCount = 1 then 1
      else orZero ((mx - mn) / (effectiveBinCount : ℚ)) 1
    let bins : List BinAcc := (List.range effectiveBinCount).map (fun (i : ℕ) =>
      { start := mn + (i : ℚ) * step,
        endB := if i = effectiveBinCount - 1 then mx else mn + ((i : ℚ) + 1) * step,
        success := 0, fail := 0 })
    let bins1 := successVals.foldl
      (fun bs v => incSuccess bs (getIndex effectiveBinCount mn step v)) bins
    let bins2 := failVals.foldl
      (fun bs v => incFail bs (getIndex effectiveBinCount mn step v)) bins1
    { binsSuccess := bins2.map (fun b => ⟨formatLabel effectiveBinCount b, b.success⟩),
      binsFail := bins2.map (fun b => ⟨formatLabel effectiveBinCount b, b.fail⟩),
      statsSuccess := computeNumericStats successVals,
      statsFail := computeNumericStats failVals }

/-- App.jsx:1713-1724 — extract the two cohorts' condition values (dropping
`null`s) and hand them to the binning core. -/
def buildConditionDistributions (parse : String → JsNum)
    (successSessions failSessions : List Session) (key : String)
    (binCount : ℕ) : Distributions :=
  let successVals :=
    (successSessions.map (fun s => getConditionValue parse s key)).reduceOption
  let failVals :=
    (failSessions.map (fun s => getConditionValue parse s key)).reduceOption
  buildCore successVals failVals binCount

/-- The default bin count of App.jsx:1717. -/
def defaultBinCount : ℕ := 6

/-- The clamp keeps every bin index in bounds, for any value whatsoever. -/
theorem getIndex_lt (m : ℕ) (mn step v : ℚ) (hm : 0 < m) :
    getIndex m mn step v < m := by
  unfold getIndex
  by_cases h1 : m = 1
  · simp [h1]
  · rw [if_neg h1]
    have hm2 : 2 ≤ m := by omega
    omega

theorem bumpAt_length (u : BinAcc → BinAcc) (bins : List BinAcc) (idx : ℕ) :
    (bumpAt u bins idx).length = bins.length := by
  simp [bumpAt]

theorem foldl_bumpAt_length (u : BinAcc → BinAcc) (f : ℚ → ℕ) (vals : List ℚ) :
    ∀ bins : List BinAcc,
      (vals.foldl (fun bs v => bumpAt u bs (f v)) bins).length = bins.length := by
  induction vals with
  | nil => intro bins; rfl
  | cons v vs ih =>
      intro bins
      rw [List.foldl_cons, ih, bumpAt_length]

theorem foldl_bumpAt_getElem? (u : BinAcc → BinAcc) (f : ℚ → ℕ) (vals : List ℚ) :
    ∀ bins : List BinAcc, (∀ v ∈ vals, f v < bins.length) → ∀ i : ℕ,
      (vals.foldl (fun bs v => bumpAt u bs (f v)) bins)[i]?
        = (fun b => u^[vals.countP (fun v => decide (f v = i))] b) <$> bins[i]? := by
  induction vals with
  | nil =>
      intro bins _ i
      simp [Function.iterate_zero]
  | cons v vs ih =>
      intro bins hb i
      have hfv : f v < bins.length := hb v (List.mem_cons_self v vs)
      have hb' : ∀ w ∈ vs, f w < (bumpAt u bins (f v)).length := by
        intro w hw
        rw [bumpAt_length]
        exact hb w (List.mem_cons_of_mem v hw)
      rw [List.foldl_cons, ih (bumpAt u bins (f v)) hb' i]
      have hgetD : bins.getD (f v) ⟨0, 0, 0, 0⟩ = bins[f v] := by
        rw [List.getD_eq_getElem?_getD, List.getElem?_eq_getElem hfv]
        rfl
      by_cases hiv : f v = i
      · subst hiv
        rw [List.countP_cons_of_pos _ _ (by simp)]
        unfold bumpAt
        rw [List.getElem?_set_self (by omega), hgetD,
          List.getElem?_eq_getElem hfv]
        simp only [Option.map_some]
        rw [← Function.iterate_succ_apply]
      · rw [List.countP_cons_of_neg _ _ (by simp [hiv])]
        unfold bumpAt
        rw [List.getElem?_set_ne hiv]

theorem succBump_iterate (k : ℕ) (b : BinAcc) :
    (fun b : BinAcc => { b with success := b.success + 1 })^[k] b
      = { b with success := b.success + k } := by
  induction k with
  | zero => simp
  | succ k ih => rw [Function.iterate_succ_apply', ih]; rfl

theorem failBump_iterate (k : ℕ) (b : BinAcc) :
    (fun b : BinAcc => { b with fail := b.fail + 1 })^[k] b
      = { b with fail := b.fail + k } := by
  induction k with
  | zero => simp
  | succ k ih => rw [Function.iterate_succ_apply', ih]; rfl

/-- The element at index `i` after both cohort-counting passes: the original
bin with its `success` and `fail` fields increased by the number of cohort
values assigned to index `i`. -/
theorem foldTwo_getElem (sv fv : List ℚ) (f : ℚ → ℕ) (bins : List BinAcc)
    (hb : ∀ v, f v < bins.length) (i : ℕ) (hi : i < bins.length) :
    (fv.foldl (fun bs v => incFail bs (f v))
        (sv.foldl (fun bs v => incSuccess bs (f v)) bins))[i]?
      = some { bins[i] with
          success := bins[i].success + sv.countP (fun v => decide (f v = i)),
          fail := bins[i].fail + fv.countP (fun v => decide (f v = i)) } := by
  simp only [incSuccess, incFail]
  have hlen1 : (sv.foldl (fun bs v => bumpAt
      (fun b => { b with success := b.success + 1 }) bs (f v)) bins).length
      = bins.length :=
    foldl_bumpAt_length _ f sv bins
  rw [foldl_bumpAt_getElem? (fun b => { b with fail := b.fail + 1 }) f fv _
    (fun v _ => hlen1 ▸ hb v) i]
  rw [foldl_bumpAt_getElem? (fun b => { b with success := b.success + 1 }) f sv
    bins (fun v _ => hb v) i]
  rw [List.getElem?_eq_getElem hi]
  simp only [Option.map_some]
  rw [succBump_iterate, failBump_iterate]

/-! ### C1: the histogram binner refines the specified binning -/

/-- Modelled from the spec: "index = floor((v − min) / width), clamped into
[0, binCount−1]". -/
def specBinIndex (mn width : ℚ) (n : ℕ) (v : ℚ) : ℕ :=
  min (n - 1) (⌊(v - mn) / width⌋.toNat)

/-- Modelled from the spec: rangeLabel "start–end" to one decimal place,
"just start when there is exactly one bin". -/
def specLabel (n : ℕ) (lo hi : ℚ) : String :=
  if n = 1 then toFixed1 lo else toFixed1 lo ++ "–" ++ toFixed1 hi

/-- Modelled from the spec (§4.4): one cohort's ordered bin sequence — one
bin on a degenerate range, otherwise `n` equal-width intervals over
[min, max] with values assigned by the clamped floor index. -/
def specHistBins (cohort allVals : List ℚ) (n : ℕ) : List BinOut :=
  let mn := listMin allVals
  let mx := listMax allVals
  if mn = mx then [⟨toFixed1 mn, cohort.length⟩]
  else
    let width := (mx - mn) / (n : ℚ)
    (List.range n).map (fun (i : ℕ) =>
      ⟨specLabel n (mn + (i : ℚ) * width) (mn + ((i : ℚ) + 1) * width),
        cohort.countP (fun v => decide (specBinIndex mn width n v = i))⟩)

/-- The code's clamped index agrees with the spec's clamped index. -/
theorem getIndex_eq_specBinIndex (m : ℕ) (mn step : ℚ) (hm : 0 < m) (v : ℚ) :
    getIndex m mn step v = specBinIndex mn step m v := by
  unfold getIndex specBinIndex
  by_cases h1 : m = 1
  · subst h1
    simp
  · rw [if_neg h1]
    generalize ⌊(v - mn) / step⌋ = I
    omega

theorem formatLabel_congr (m : ℕ) (b b' : BinAcc)
    (h1 : b.start = b'.start) (h2 : b.endB = b'.endB) :
    formatLabel m b = formatLabel m b' := by
  unfold formatLabel
  rw [h1, h2]

theorem foldTwo_length (sv fv : List ℚ) (f : ℚ → ℕ) (bins : List BinAcc) :
    (fv.foldl (fun bs v => incFail bs (f v))
        (sv.foldl (fun bs v => incSuccess bs (f v)) bins)).length
      = bins.length := by
  simp only [incSuccess, incFail]
  rw [foldl_bumpAt_length, foldl_bumpAt_length]

theorem foldTwo_getElem' (sv fv : List ℚ) (f : ℚ → ℕ) (bins : List BinAcc)
    (hb : ∀ v, f v < bins.length) (i : ℕ) (hi : i < bins.length)
    (hi2 : i < (fv.foldl (fun bs v => incFail bs (f v))
        (sv.foldl (fun bs v => incSuccess bs (f v)) bins)).length) :
    (fv.foldl (fun bs v => incFail bs (f v))
        (sv.foldl (fun bs v => incSuccess bs (f v)) bins))[i]
      = { bins[i] with
          success := bins[i].success + sv.countP (fun v => decide (f v = i)),
          fail := bins[i].fail + fv.countP (fun v => decide (f v = i)) } := by
  have h := foldTwo_getElem sv fv f bins hb i hi
  rw [List.getElem?_eq_getElem hi2] at h
  exact Option.some.inj h

/-- `buildCore` on a non-empty combined cohort, with both counting passes
flattened into per-bin counts. -/
theorem buildCore_explicit (sv fv : List ℚ) (n : ℕ) (hn : 0 < n)
    (hne : sv ++ fv ≠ []) :
    buildCore sv fv n =
      let mn := listMin (sv ++ fv)
      let mx := listMax (sv ++ fv)
      let ebc := if mn = mx then 1 else n
      let step : ℚ := if ebc = 1 then 1 else orZero ((mx - mn) / (ebc : ℚ)) 1
      { binsSuccess := (List.range ebc).map (fun (i : ℕ) =>
          ⟨formatLabel ebc
              ⟨mn + (i : ℚ) * step,
                if i = ebc - 1 then mx else mn + ((i : ℚ) + 1) * step, 0, 0⟩,
            sv.countP (fun v => decide (getIndex ebc mn step v = i))⟩),
        binsFail := (List.range ebc).map (fun (i : ℕ) =>
          ⟨formatLabel ebc
              ⟨mn + (i : ℚ) * step,
                if i = ebc - 1 then mx else mn + ((i : ℚ) + 1) * step, 0, 0⟩,
            fv.countP (fun v => decide (getIndex ebc mn step v = i))⟩),
        statsSuccess := computeNumericStats sv,
        statsFail := computeNumericStats fv } := by
  simp only [buildCore]
  rw [if_neg hne]
  set mn := listMin (sv ++ fv) with hmn
  set mx := listMax (sv ++ fv) with hmx
  set ebc := if mn = mx then 1 else n with hebc_def
  set step : ℚ := if ebc = 1 then 1 else orZero ((mx - mn) / (ebc : ℚ)) 1
    with hstep_def
  have hebc : 0 < ebc := by
    rw [hebc_def]
    by_cases h : mn = mx
    · rw [if_pos h]; omega
    · rw [if_neg h]; exact hn
  set bins0 : List BinAcc := (List.range ebc).map (fun (i : ℕ) =>
    { start := mn + (i : ℚ) * step,
      endB := if i = ebc - 1 then mx else mn + ((i : ℚ) + 1) * step,
      success := 0, fail := 0 }) with hbins0
  have hlen0 : bins0.length = ebc := by
    rw [hbins0, List.length_map, List.length_range]
  have hb : ∀ v, getIndex ebc mn step v < bins0.length := by
    intro v
    rw [hlen0]
    exact getIndex_lt ebc mn step v hebc
  simp only [Distributions.mk.injEq]
  refine ⟨?_, ?_, trivial, trivial⟩
  · apply List.ext_getElem
    · rw [List.length_map, foldTwo_length, hlen0, List.length_map,
        List.length_range]
    · intro i h1 h2
      rw [List.length_map, foldTwo_length, hlen0] at h1
      rw [List.length_map, List.length_range] at h2
      have hib : i < bins0.length := by omega
      rw [List.getElem_map, List.getElem_map,
        foldTwo_getElem' sv fv _ bins0 hb i hib
          (by rw [foldTwo_length, hlen0]; omega)]
      have hbin0 : bins0[i] =
          { start := mn + (i : ℚ) * step,
            endB := if i = ebc - 1 then mx else mn + ((i : ℚ) + 1) * step,
            success := 0, fail := 0 } := by
        simp only [hbins0, List.getElem_map, List.getElem_range]
      rw [hbin0, List.getElem_range]
      simp only [BinOut.mk.injEq]
      refine ⟨formatLabel_congr ebc _ _ (by simp) (by simp), by simp⟩
  · apply List.ext_getElem
    · rw [List.length_map, foldTwo_length, hlen0, List.length_map,
        List.length_range]
    · intro i h1 h2
      rw [List.length_map, foldTwo_length, hlen0] at h1
      rw [List.length_map, List.length_range] at h2
      have hib : i < bins0.length := by omega
      rw [List.getElem_map, List.getElem_map,
        foldTwo_getElem' sv fv _ bins0 hb i hib
          (by rw [foldTwo_length, hlen0]; omega)]
      have hbin0 : bins0[i] =
          { start := mn + (i : ℚ) * step,
            endB := if i = ebc - 1 then mx else mn + ((i : ℚ) + 1) * step,
            success := 0, fail := 0 } := by
        simp only [hbins0, List.getElem_map, List.getElem_range]
      rw [hbin0, List.getElem_range]
      simp only [BinOut.mk.injEq]
      refine ⟨formatLabel_congr ebc _ _ (by simp) (by simp), by simp⟩

theorem range_one_eq : List.range 1 = [0] := rfl

/-- The computed bin list equals the spec's bin list, for either cohort. -/
theorem rangeMap_eq_specHistBins (cohort allVals : List ℚ) (n : ℕ) (hn : 0 < n)
    (mn mx : ℚ) (ebc : ℕ) (step : ℚ)
    (hmn : mn = listMin allVals) (hmx : mx = listMax allVals)
    (hebc : ebc = if mn = mx then 1 else n)
    (hstep : step = if ebc = 1 then 1 else orZero ((mx - mn) / (ebc : ℚ)) 1) :
    (List.range ebc).map (fun (i : ℕ) =>
        (⟨formatLabel ebc
            ⟨mn + (i : ℚ) * step,
              if i = ebc - 1 then mx else mn + ((i : ℚ) + 1) * step, 0, 0⟩,
          cohort.countP (fun v => decide (getIndex ebc mn step v = i))⟩ : BinOut))
      = specHistBins cohort allVals n := by
  have hcount1 : ∀ (m st : ℚ),
      cohort.countP (fun v => decide (getIndex 1 m st v = 0)) = cohort.length := by
    intro m st
    have hp : (fun v : ℚ => decide (getIndex 1 m st v = 0)) = fun _ => true := by
      funext v
      simp [getIndex]
    rw [hp, List.countP_true]
  have hspec1 : ∀ w : ℚ,
      cohort.countP (fun v => decide (specBinIndex mn w 1 v = 0)) = cohort.length := by
    intro w
    have hp : (fun v : ℚ => decide (specBinIndex mn w 1 v = 0)) = fun _ => true := by
      funext v
      simp [specBinIndex]
    rw [hp, List.countP_true]
  by_cases hmm : mn = mx
  · rw [if_pos hmm] at hebc
    have hstep1 : step = 1 := by rw [hstep, hebc]; simp
    subst hstep1
    subst hebc
    simp only [specHistBins, ← hmn, ← hmx, if_pos hmm]
    rw [range_one_eq]
    simp only [List.map_cons, List.map_nil]
    rw [hcount1 mn 1]
    simp only [List.cons.injEq, BinOut.mk.injEq, and_true]
    unfold formatLabel
    rw [if_pos rfl]
    exact congrArg toFixed1 (by push_cast; ring)
  · rw [if_neg hmm] at hebc
    rw [hebc] at hstep ⊢
    simp only [specHistBins, ← hmn, ← hmx, if_neg hmm]
    by_cases hn1 : n = 1
    · have hstep1 : step = 1 := by rw [hstep, if_pos hn1]
      subst hstep1
      subst hn1
      rw [range_one_eq]
      simp only [List.map_cons, List.map_nil]
      rw [hcount1 mn 1, hspec1 _]
      simp only [List.cons.injEq, BinOut.mk.injEq, and_true]
      unfold formatLabel specLabel
      rw [if_pos rfl, if_pos rfl]
      exact congrArg toFixed1 (by push_cast; ring)
    · have hnQ : ((n : ℚ)) ≠ 0 := by
        exact_mod_cast hn.ne'
      have hwne : (mx - mn) / ((n : ℕ) : ℚ) ≠ 0 :=
        div_ne_zero (sub_ne_zero.mpr (Ne.symm hmm)) hnQ
      have hstep1 : step = (mx - mn) / ((n : ℕ) : ℚ) := by
        rw [hstep, if_neg hn1]
        unfold orZero
        rw [if_neg hwne]
      subst hstep1
      apply List.ext_getElem
      · rw [List.length_map, List.length_map]
      · intro i h1 h2
        rw [List.length_map, List.length_range] at h1
        rw [List.getElem_map, List.getElem_map, List.getElem_range]
        have hidx : (fun v => decide
            (getIndex n mn ((mx - mn) / ((n : ℕ) : ℚ)) v = i))
            = fun v => decide (specBinIndex mn ((mx - mn) / ((n : ℕ) : ℚ)) n v = i) := by
          funext v
          rw [getIndex_eq_specBinIndex n mn ((mx - mn) / ((n : ℕ) : ℚ)) hn v]
        rw [hidx]
        simp only [BinOut.mk.injEq, and_true]
        unfold formatLabel specLabel
        rw [if_neg hn1, if_neg hn1]
        by_cases hi : i = n - 1
        · rw [if_pos hi]
          have hend : mx = mn + (((i : ℕ) : ℚ) + 1) * ((mx - mn) / ((n : ℕ) : ℚ)) := by
            subst hi
            have hcast : (((n - 1 : ℕ)) : ℚ) + 1 = ((n : ℕ) : ℚ) := by
              rw [Nat.cast_sub (by omega : 1 ≤ n)]
              norm_num
            rw [hcast]
            field_simp
          rw [← hend]
        · rw [if_neg hi]

/-- C1: on any pair of cohorts with at least one value in total and any
positive bin count, the binner's output bins (labels and counts, for both
cohorts) are exactly the spec's: one bin spanning the single value when
min = max, otherwise n equal-width bins over [min, max], values assigned by
the clamped floor index, with "start–end" one-decimal labels. -/
theorem buildCore_spec (successVals failVals : List ℚ) (n : ℕ)
    (hn : 0 < n) (hne : successVals ++ failVals ≠ []) :
    (buildCore successVals failVals n).binsSuccess
        = specHistBins successVals (successVals ++ failVals) n
    ∧ (buildCore successVals failVals n).binsFail
        = specHistBins failVals (successVals ++ failVals) n := by
  simp only [buildCore_explicit successVals failVals n hn hne]
  constructor
  · exact rangeMap_eq_specHistBins successVals (successVals ++ failVals) n hn
      _ _ _ _ rfl rfl rfl rfl
  · exact rangeMap_eq_specHistBins failVals (successVals ++ failVals) n hn
      _ _ _ _ rfl rfl rfl rfl

/-- Witness for C1 at the spec's example: cohorts [0, 10] and [5], 2 bins. -/
theorem buildCore_spec_witness :
    0 < 2 ∧ (([0, 10] : List ℚ) ++ [5] ≠ [])
    ∧ ((buildCore [0, 10] [5] 2).binsSuccess
          = specHistBins [0, 10] ([0, 10] ++ [5]) 2
        ∧ (buildCore [0, 10] [5] 2).binsFail
          = specHistBins [5] ([0, 10] ++ [5]) 2) :=
  ⟨by decide, by decide, buildCore_spec [0, 10] [5] 2 (by decide) (by decide)⟩

/-! ### C10: every surviving value lands in exactly one in-bounds bin -/

theorem sum_map_add_nat (l : List ℕ) (f g : ℕ → ℕ) :
    (l.map (fun i => f i + g i)).sum = (l.map f).sum + (l.map g).sum := by
  induction l with
  | nil => rfl
  | cons a t ih =>
      simp only [List.map_cons, List.sum_cons, ih]
      omega

theorem sum_map_indicator (n j : ℕ) (hj : j < n) :
    ((List.range n).map (fun i => if j = i then 1 else 0)).sum = 1 := by
  induction n with
  | zero => omega
  | succ n ih =>
      rw [List.range_succ, List.map_append, List.sum_append]
      by_cases h : j = n
      · have hz : ((List.range n).map (fun i => if j = i then 1 else 0)).sum = 0 := by
          apply List.sum_eq_zero
          intro x hx
          rw [List.mem_map] at hx
          obtain ⟨i, hi, rfl⟩ := hx
          rw [List.mem_range] at hi
          rw [if_neg (by omega)]
        rw [hz]
        simp [h]
      · rw [ih (by omega)]
        simp [h]

theorem sum_range_countP (vals : List ℚ) (f : ℚ → ℕ) (n : ℕ)
    (h : ∀ v, f v < n) :
    ((List.range n).map (fun i => vals.countP (fun v => decide (f v = i)))).sum
      = vals.length := by
  induction vals with
  | nil => simp
  | cons v vs ih =>
      have hrw : (fun i => List.countP (fun w => decide (f w = i)) (v :: vs))
          = fun i => List.countP (fun w => decide (f w = i)) vs
              + if f v = i then 1 else 0 := by
        funext i
        rw [List.countP_cons]
        simp
      rw [hrw, sum_map_add_nat, ih, sum_map_indicator n (f v) (h v),
        List.length_cons]

/-- C10: the clamp keeps every bin index in bounds, so each filtered cohort
value is counted in exactly one bin and the bin counts of each cohort sum to
that cohort's number of filtered values. -/
theorem buildCore_counts (successVals failVals : List ℚ) (n : ℕ) (hn : 0 < n) :
    (∀ (m : ℕ) (mn step v : ℚ), 0 < m → getIndex m mn step v < m)
    ∧ ((buildCore successVals failVals n).binsSuccess.map BinOut.count).sum
        = successVals.length
    ∧ ((buildCore successVals failVals n).binsFail.map BinOut.count).sum
        = failVals.length := by
  refine ⟨fun m mn step v hm => getIndex_lt m mn step v hm, ?_⟩
  by_cases hne : successVals ++ failVals = []
  · obtain ⟨h1, h2⟩ := List.append_eq_nil.mp hne
    subst h1
    subst h2
    constructor <;> rfl
  · simp only [buildCore_explicit successVals failVals n hn hne]
    set mn := listMin (successVals ++ failVals) with hmn
    set mx := listMax (successVals ++ failVals) with hmx
    set ebc := if mn = mx then 1 else n with hebc_def
    set step : ℚ := if ebc = 1 then 1 else orZero ((mx - mn) / (ebc : ℚ)) 1
      with hstep_def
    have hebc : 0 < ebc := by
      rw [hebc_def]
      by_cases h : mn = mx
      · rw [if_pos h]; omega
      · rw [if_neg h]; exact hn
    constructor
    · rw [List.map_map]
      have hcomp : (BinOut.count ∘ fun (i : ℕ) =>
          (⟨formatLabel ebc
              ⟨mn + (i : ℚ) * step,
                if i = ebc - 1 then mx else mn + ((i : ℚ) + 1) * step, 0, 0⟩,
            successVals.countP (fun v => decide (getIndex ebc mn step v = i))⟩
            : BinOut))
          = fun (i : ℕ) =>
            successVals.countP (fun v => decide (getIndex ebc mn step v = i)) := by
        funext i
        rfl
      rw [hcomp]
      exact sum_range_countP successVals _ ebc (fun v => getIndex_lt _ _ _ v hebc)
    · rw [List.map_map]
      have hcomp : (BinOut.count ∘ fun (i : ℕ) =>
          (⟨formatLabel ebc
              ⟨mn + (i : ℚ) * step,
                if i = ebc - 1 then mx else mn + ((i : ℚ) + 1) * step, 0, 0⟩,
            failVals.countP (fun v => decide (getIndex ebc mn step v = i))⟩
            : BinOut))
          = fun (i : ℕ) =>
            failVals.countP (fun v => decide (getIndex ebc mn step v = i)) := by
        funext i
        rfl
      rw [hcomp]
      exact sum_range_countP failVals _ ebc (fun v => getIndex_lt _ _ _ v hebc)

/-- Witness for C10 at cohorts [1, 2] and [3] with the default 6 bins. -/
theorem buildCore_counts_witness :
    0 < 6
    ∧ ((∀ (m : ℕ) (mn step v : ℚ), 0 < m → getIndex m mn step v < m)
      ∧ ((buildCore [1, 2] [3] 6).binsSuccess.map BinOut.count).sum
          = ([1, 2] : List ℚ).length
      ∧ ((buildCore [1, 2] [3] 6).binsFail.map BinOut.count).sum
          = ([3] : List ℚ).length) :=
  ⟨by decide, buildCore_counts [1, 2] [3] 6 (by decide)⟩

/-! ### C6: empty inputs yield explicit unavailability -/

/-- C6: the numeric summary of an empty collection is `none` ("no summary
available"), and the binner on two cohorts that are empty after filtering
absent values reports empty bin sequences and no summaries, not zero bins. -/
theorem empty_inputs_unavailable :
    computeNumericStats [] = none
    ∧ ∀ (parse : String → JsNum) (successSessions failSessions : List Session)
        (key : String) (binCount : ℕ),
        (successSessions.map (fun s => getConditionValue parse s key)).reduceOption
            = []
        → (failSessions.map (fun s => getConditionValue parse s key)).reduceOption
            = []
        → buildConditionDistributions parse successSessions failSessions key
            binCount = ⟨[], [], none, none⟩ := by
  refine ⟨rfl, ?_⟩
  intro parse ss fs key bc h1 h2
  simp [buildConditionDistributions, buildCore, h1, h2]

/-- Witness for C6: a session whose temp condition does not parse, against an
empty failure cohort. -/
theorem empty_inputs_unavailable_witness :
    (([⟨some "success", "d1", none, fun _ => some (JsVal.str "dry"), none⟩].map
        (fun s => getConditionValue (fun _ => JsNum.nan) s "temp")).reduceOption
      = ([] : List ℚ))
    ∧ (([] : List Session).map
        (fun s => getConditionValue (fun _ => JsNum.nan) s "temp")).reduceOption
      = ([] : List ℚ)
    ∧ buildConditionDistributions (fun _ => JsNum.nan)
        [⟨some "success", "d1", none, fun _ => some (JsVal.str "dry"), none⟩]
        [] "temp" 6 = ⟨[], [], none, none⟩ :=
  ⟨rfl, rfl,
    empty_inputs_unavailable.2 (fun _ => JsNum.nan)
      [⟨some "success", "d1", none, fun _ => some (JsVal.str "dry"), none⟩]
      [] "temp" 6 rfl rfl⟩

/-! ### The aggregate-statistics pass (App.jsx:2341-2493) -/

/-- The four recognized condition keys (App.jsx:2362-2367, 2417). -/
inductive CondKey where
  | temp
  | hum
  | press
  | wind
deriving DecidableEq

/-- The string under which each recognized key is stored in `conditions`. -/
def CondKey.str : CondKey → String
  | temp => "temp"
  | hum => "hum"
  | press => "press"
  | wind => "wind"

/-- An entry of `perDogMap` (App.jsx:2386-2395). -/
structure DogEntry where
  dogId : String
  name : String
  code : String
  total : ℕ
  success : ℕ
  fail : ℕ
deriving DecidableEq

/-- An entry of `scentMap` (App.jsx:2403-2410). -/
structure ScentEntry where
  scent : String
  total : ℕ
  success : ℕ
  fail : ℕ
deriving DecidableEq

/-- An entry of one of the four `condMaps` (App.jsx:2424-2431). -/
structure CondEntry where
  value : ℚ
  total : ℕ
  success : ℕ
  fail : ℕ
deriving DecidableEq

/-- The accumulator of the single traversal (App.jsx:2360-2371); insertion
order of the JavaScript `Map`s is modelled by association lists. -/
structure AggState where
  perDogMap : List DogEntry
  scentMap : List ScentEntry
  condMaps : CondKey → List CondEntry
  totalSessions : ℕ
  totalSuccess : ℕ
  totalFail : ℕ

def initAggState : AggState :=
  ⟨[], [], fun _ => [], 0, 0, 0⟩

/-- App.jsx:2378 — `dog?.id || s.dog_id`. -/
def sessionDogId (s : Session) : String :=
  orFalsy (s.dogs.bind DogRef.id) s.dog_id

/-- App.jsx:2379 — `dog?.name || "Perro sin nombre"`. -/
def sessionDogName (s : Session) : String :=
  orFalsy (s.dogs.bind DogRef.name) "Perro sin nombre"

/-- App.jsx:2380 — `dog?.dog_code || ""`. -/
def sessionDogCode (s : Session) : String :=
  orFalsy (s.dogs.bind DogRef.dog_code) ""

/-- The fixed label sessions with no scent are grouped under
(App.jsx:2402). -/
def unknownScentLabel : String := "Desconocido"

/-- App.jsx:2401-2402 — `String(typeObj.scent || "Desconocido")`. -/
def sessionScent (s : Session) : String :=
  orFalsy (s.type.bind TypeObj.scent) unknownScentLabel

/-- App.jsx:2386-2399 — create-if-absent then increment, keyed by dog id. -/
def bumpDog (m : List DogEntry) (dogId name code : String) (isS : Bool) :
    List DogEntry :=
  if m.any (fun e => e.dogId == dogId) then
    m.map (fun e => if e.dogId == dogId then
      { e with total := e.total + 1,
               success := if isS then e.success + 1 else e.success,
               fail := if isS then e.fail else e.fail + 1 }
      else e)
  else
    m ++ [⟨dogId, name, code, 1, if isS then 1 else 0, if isS then 0 else 1⟩]

/-- App.jsx:2403-2414 — create-if-absent then increment, keyed by scent. -/
def bumpScent (m : List ScentEntry) (scent : String) (isS : Bool) :
    List ScentEntry :=
  if m.any (fun e => e.scent == scent) then
    m.map (fun e => if e.scent == scent then
      { e with total := e.total + 1,
               success := if isS then e.success + 1 else e.success,
               fail := if isS then e.fail else e.fail + 1 }
      else e)
  else
    m ++ [⟨scent, 1, if isS then 1 else 0, if isS then 0 else 1⟩]

/-- App.jsx:2422-2435 — create-if-absent then increment, keyed by the exact
numeric condition value. -/
def bumpCond (m : List CondEntry) (v : ℚ) (isS : Bool) : List CondEntry :=
  if m.any (fun e => e.value == v) then
    m.map (fun e => if e.value == v then
      { e with total := e.total + 1,
               success := if isS then e.success + 1 else e.success,
               fail := if isS then e.fail else e.fail + 1 }
      else e)
  else
    m ++ [⟨v, 1, if isS then 1 else 0, if isS then 0 else 1⟩]

/-- App.jsx:2416-2436 — per recognized key: extract the numeric value (the
inline lines 2418-2420 repeat `getConditionValue` verbatim), skip the session
for that key when it is absent, otherwise bump that key's map. -/
def stepCond (parse : String → JsNum) (s : Session) (isS : Bool) (k : CondKey)
    (m : List CondEntry) : List CondEntry :=
  match getConditionValue parse s k.str with
  | none => m
  | some v => bumpCond m v isS

/-- App.jsx:2373-2437 — one iteration of the session traversal. -/
def processStep (parse : String → JsNum) (st : AggState) (s : Session) :
    AggState :=
  let isS := isSuccessResult s.result
  { perDogMap := bumpDog st.perDogMap (sessionDogId s) (sessionDogName s)
      (sessionDogCode s) isS,
    scentMap := bumpScent st.scentMap (sessionScent s) isS,
    condMaps := fun k => stepCond parse s isS k (st.condMaps k),
    totalSessions := st.totalSessions + 1,
    totalSuccess := if isS then st.totalSuccess + 1 else st.totalSuccess,
    totalFail := if isS then st.totalFail else st.totalFail + 1 }

def aggStateOf (parse : String → JsNum) (sessions : List Session) : AggState :=
  sessions.foldl (processStep parse) initAggState

/-- The global KPI card values (App.jsx:2439-2446). -/
structure GlobalKpis where
  totalSessions : ℕ
  totalDogs : ℕ
  successRate : ℤ
  totalFails : ℕ
deriving DecidableEq

/-- A per-dog row with rate percentages (App.jsx:2448-2460). -/
structure DogStat where
  dogId : String
  name : String
  code : String
  total : ℕ
  success : ℕ
  fail : ℕ
  successRate : ℚ
  failRate : ℚ
deriving DecidableEq

/-- A per-scent row (App.jsx:2463-2470). -/
structure ScentStat where
  scent : String
  total : ℕ
  success : ℕ
  fail : ℕ
  successRate : ℤ
deriving DecidableEq

/-- A point of a per-condition series (App.jsx:2474-2482). -/
structure SeriesPoint where
  value : ℚ
  total : ℕ
  success : ℕ
  fail : ℕ
  successRate : ℤ
deriving DecidableEq

/-- Everything `processSessions` hands to the page's state setters. -/
structure StatsOutput where
  globalKpis : GlobalKpis
  perDogStats : List DogStat
  scentStats : List ScentStat
  conditionSeries : CondKey → List SeriesPoint

/-- JavaScript `Math.round`: round half toward positive infinity. -/
def jsRound (q : ℚ) : ℤ :=
  ⌊q + 1 / 2⌋

/-- App.jsx:2473-2485 — decorate one condition map with rates and sort it
ascending by value (`(a, b) => a.value - b.value`). -/
def buildSeries (m : List CondEntry) : List SeriesPoint :=
  let arr := m.map (fun e =>
    { value := e.value, total := e.total, success := e.success, fail := e.fail,
      successRate := if e.total ≠ 0 then
        jsRound ((e.success : ℚ) / (e.total : ℚ) * 100) else 0 })
  arr.mergeSort (fun a b => decide (a.value ≤ b.value))

/-- App.jsx:2341-2493 — the whole aggregate pass: early return on an empty
fetch, otherwise one traversal followed by the four derived outputs. -/
def processSessions (parse : String → JsNum) (sessions : List Session) :
    StatsOutput :=
  if sessions.isEmpty then
    { globalKpis := ⟨0, 0, 0, 0⟩, perDogStats := [], scentStats := [],
      conditionSeries := fun _ => [] }
  else
    let st := aggStateOf parse sessions
    { globalKpis :=
        ⟨st.totalSessions, st.perDogMap.length,
          if st.totalSessions ≠ 0 then
            jsRound ((st.totalSuccess : ℚ) / (st.totalSessions : ℚ) * 100)
          else 0,
          st.totalFail⟩,
      perDogStats := st.perDogMap.map (fun d =>
        { dogId := d.dogId, name := d.name, code := d.code, total := d.total,
          success := d.success, fail := d.fail,
          successRate := if d.total ≠ 0 then
            (d.success : ℚ) / (d.total : ℚ) * 100 else 0,
          failRate := if d.total ≠ 0 then
            (d.fail : ℚ) / (d.total : ℚ) * 100 else 0 }),
      scentStats := st.scentMap.map (fun e =>
        ⟨e.scent, e.total, e.success, e.fail,
          if e.total ≠ 0 then
            jsRound ((e.success : ℚ) / (e.total : ℚ) * 100) else 0⟩),
      conditionSeries := fun k => buildSeries (st.condMaps k) }

/-- The caller-selected ranking key mode (App.jsx:2259-2262). -/
inductive DogTableMode where
  | absolute
  | rate
deriving DecidableEq

/-- The value of the selected success sort key (App.jsx:2259-2260, 2267). -/
def sortKeySuccessVal : DogTableMode → DogStat → ℚ
  | DogTableMode.absolute, d => (d.success : ℚ)
  | DogTableMode.rate, d => d.successRate

/-- The value of the selected fail sort key (App.jsx:2261-2262, 2274). -/
def sortKeyFailVal : DogTableMode → DogStat → ℚ
  | DogTableMode.absolute, d => (d.fail : ℚ)
  | DogTableMode.rate, d => d.failRate

/-- App.jsx:2264-2269 — descending stable sort of the per-dog rows by the
selected success key (JavaScript sort is stable). -/
def successRanking (mode : DogTableMode) (perDogStats : List DogStat) :
    List DogStat :=
  if perDogStats = [] then []
  else perDogStats.mergeSort
    (fun a b => decide (sortKeySuccessVal mode b ≤ sortKeySuccessVal mode a))

/-- App.jsx:2271-2276 — descending stable sort by the selected fail key. -/
def failRanking (mode : DogTableMode) (perDogStats : List DogStat) :
    List DogStat :=
  if perDogStats = [] then []
  else perDogStats.mergeSort
    (fun a b => decide (sortKeyFailVal mode b ≤ sortKeyFailVal mode a))

/-! ### C5: absent condition values are excluded but still globally counted -/

/-- C5: an absent, non-finite, or unparseable conditions entry yields
"absent" (`none`) from the extractor, and appending such a session to the
input leaves that condition's series untouched while the global
total/success/fail counters still count the session. -/
theorem absent_condition_semantics :
    (∀ (parse : String → JsNum) (s : Session) (key : String),
      (s.conditions key = none
        ∨ s.conditions key = some (JsVal.num JsNum.nan)
        ∨ s.conditions key = some (JsVal.num JsNum.inf)
        ∨ s.conditions key = some (JsVal.num JsNum.negInf)
        ∨ (∃ t, s.conditions key = some (JsVal.str t)
            ∧ ∀ q, parse t ≠ JsNum.fin q)
        ∨ s.conditions key = some JsVal.other)
      → getConditionValue parse s key = none)
    ∧ ∀ (parse : String → JsNum) (sessions : List Session) (s : Session)
        (k : CondKey),
        getConditionValue parse s k.str = none →
        (processSessions parse (sessions ++ [s])).conditionSeries k
            = (processSessions parse sessions).conditionSeries k
        ∧ (aggStateOf parse (sessions ++ [s])).totalSessions
            = (aggStateOf parse sessions).totalSessions + 1
        ∧ (aggStateOf parse (sessions ++ [s])).totalSuccess
            = (aggStateOf parse sessions).totalSuccess
              + (if isSuccessResult s.result then 1 else 0)
        ∧ (aggStateOf parse (sessions ++ [s])).totalFail
            = (aggStateOf parse sessions).totalFail
              + (if isSuccessResult s.result then 0 else 1) := by
  constructor
  · intro parse s key hcase
    rcases hcase with h | h | h | h | ⟨t, ht, hfail⟩ | h
    · simp [getConditionValue, h]
    · simp [getConditionValue, h]
    · simp [getConditionValue, h]
    · simp [getConditionValue, h]
    · cases hp : parse t with
      | fin q => exact absurd hp (hfail q)
      | nan => simp [getConditionValue, ht, hp]
      | inf => simp [getConditionValue, ht, hp]
      | negInf => simp [getConditionValue, ht, hp]
    · simp [getConditionValue, h]
  · intro parse sessions s k hnone
    have hfold : aggStateOf parse (sessions ++ [s])
        = processStep parse (aggStateOf parse sessions) s := by
      unfold aggStateOf
      rw [List.foldl_append]
      rfl
    have hne2 : (sessions ++ [s]).isEmpty = false := by
      cases sessions <;> rfl
    refine ⟨?_, ?_, ?_, ?_⟩
    · by_cases hsess : sessions = []
      · subst hsess
        simp [processSessions, processStep, stepCond, hnone, aggStateOf,
          initAggState, buildSeries]
      · have hne1 : sessions.isEmpty = false := by
          cases sessions with
          | nil => exact absurd rfl hsess
          | cons a t => rfl
        simp [processSessions, hne1, hne2, hfold, processStep, stepCond, hnone]
    · rw [hfold]
      rfl
    · rw [hfold]
      by_cases hS : isSuccessResult s.result <;> simp [processStep, hS]
    · rw [hfold]
      by_cases hS : isSuccessResult s.result <;> simp [processStep, hS]

/-- Witness for C5: a session with no conditions at all, appended to an
empty list. -/
theorem absent_condition_semantics_witness :
    getConditionValue (fun _ => JsNum.nan)
        ⟨some "fail", "d", none, fun _ => none, none⟩ "temp" = none
    ∧ ((processSessions (fun _ => JsNum.nan)
          ([] ++ [⟨some "fail", "d", none, fun _ => none, none⟩])).conditionSeries
            CondKey.temp
        = (processSessions (fun _ => JsNum.nan) []).conditionSeries CondKey.temp
      ∧ (aggStateOf (fun _ => JsNum.nan)
            ([] ++ [⟨some "fail", "d", none, fun _ => none, none⟩])).totalSessions
        = (aggStateOf (fun _ => JsNum.nan) []).totalSessions + 1
      ∧ (aggStateOf (fun _ => JsNum.nan)
            ([] ++ [⟨some "fail", "d", none, fun _ => none, none⟩])).totalSuccess
        = (aggStateOf (fun _ => JsNum.nan) []).totalSuccess
          + (if isSuccessResult (some "fail") then 1 else 0)
      ∧ (aggStateOf (fun _ => JsNum.nan)
            ([] ++ [⟨some "fail", "d", none, fun _ => none, none⟩])).totalFail
        = (aggStateOf (fun _ => JsNum.nan) []).totalFail
          + (if isSuccessResult (some "fail") then 0 else 1)) :=
  ⟨absent_condition_semantics.1 (fun _ => JsNum.nan)
      ⟨some "fail", "d", none, fun _ => none, none⟩ "temp" (Or.inl rfl),
    absent_condition_semantics.2 (fun _ => JsNum.nan) []
      ⟨some "fail", "d", none, fun _ => none, none⟩ CondKey.temp rfl⟩

/-! ### C9: tied dogs keep their encounter order in the rankings -/

theorem mergeSort_filter_fixed_key (key : DogStat → ℚ) (l : List DogStat)
    (c : ℚ) :
    (l.mergeSort (fun a b => decide (key b ≤ key a))).filter
        (fun d => decide (key d = c))
      = l.filter (fun d => decide (key d = c)) := by
  have htrans : ∀ a b d : DogStat,
      (fun a b => decide (key b ≤ key a)) a b
      → (fun a b => decide (key b ≤ key a)) b d
      → (fun a b => decide (key b ≤ key a)) a d := by
    intro a b d hab hbd
    simp only [decide_eq_true_eq] at *
    exact le_trans hbd hab
  have htotal : ∀ a b : DogStat,
      (fun a b => decide (key b ≤ key a)) a b
        || (fun a b => decide (key b ≤ key a)) b a := by
    intro a b
    simp only [Bool.or_eq_true, decide_eq_true_eq]
    exact le_total (key b) (key a)
  have hpw : (l.filter (fun d => decide (key d = c))).Pairwise
      (fun a b => decide (key b ≤ key a)) := by
    apply List.pairwise_of_forall_mem_list
    intro a ha b hb
    have ha' : key a = c := by
      have := (List.mem_filter.mp ha).2
      simpa using this
    have hb' : key b = c := by
      have := (List.mem_filter.mp hb).2
      simpa using this
    simp [ha', hb']
  have hsub : List.Sublist (l.filter (fun d => decide (key d = c)))
      (l.mergeSort (fun a b => decide (key b ≤ key a))) :=
    List.sublist_mergeSort htrans htotal hpw (List.filter_sublist l)
  have hsub2 : List.Sublist (l.filter (fun d => decide (key d = c)))
      ((l.mergeSort (fun a b => decide (key b ≤ key a))).filter
          (fun d => decide (key d = c))) := by
    have h1 := hsub.filter (fun d => decide (key d = c))
    rwa [List.filter_eq_self.mpr (fun a ha => (List.mem_filter.mp ha).2)] at h1
  have hlen : ((l.mergeSort (fun a b => decide (key b ≤ key a))).filter
        (fun d => decide (key d = c))).length
      = (l.filter (fun d => decide (key d = c))).length :=
    ((List.mergeSort_perm l _).filter _).length_eq
  exact (hsub2.eq_of_length hlen.symm).symm

/-- C9: for either ranking and either key mode, dogs tied on the selected
key keep their original encounter order: filtering a ranking to any fixed
key value returns the input's rows with that value in input order. -/
theorem ranking_stable (mode : DogTableMode) (l : List DogStat) (c : ℚ) :
    (successRanking mode l).filter
        (fun d => decide (sortKeySuccessVal mode d = c))
      = l.filter (fun d => decide (sortKeySuccessVal mode d = c))
    ∧ (failRanking mode l).filter
        (fun d => decide (sortKeyFailVal mode d = c))
      = l.filter (fun d => decide (sortKeyFailVal mode d = c)) := by
  constructor
  · unfold successRanking
    by_cases hl : l = []
    · subst hl
      rw [if_pos rfl]
    · rw [if_neg hl]
      exact mergeSort_filter_fixed_key (sortKeySuccessVal mode) l c
  · unfold failRanking
    by_cases hl : l = []
    · subst hl
      rw [if_pos rfl]
    · rw [if_neg hl]
      exact mergeSort_filter_fixed_key (sortKeyFailVal mode) l c

/-! ### First-encounter key order, shared by the grouping claims

A JavaScript `Map` lists its keys in insertion order: the distinct keys in
first-encounter order. -/

def firstOccurrences {α : Type} [DecidableEq α] : List α → List α
  | [] => []
  | x :: xs => x :: (firstOccurrences xs).filter (fun y => y != x)

theorem mem_firstOccurrences {α : Type} [DecidableEq α] (l : List α) (x : α) :
    x ∈ firstOccurrences l ↔ x ∈ l := by
  induction l with
  | nil => simp [firstOccurrences]
  | cons a t ih =>
      simp only [firstOccurrences, List.mem_cons, List.mem_filter, ih,
        bne_iff_ne]
      by_cases hxa : x = a
      · simp [hxa]
      · simp [hxa]

theorem nodup_firstOccurrences {α : Type} [DecidableEq α] (l : List α) :
    (firstOccurrences l).Nodup := by
  induction l with
  | nil => simp [firstOccurrences]
  | cons a t ih =>
      rw [firstOccurrences, List.nodup_cons]
      constructor
      · intro hmem
        have := (List.mem_filter.mp hmem).2
        simp at this
      · exact ih.filter _

theorem firstOccurrences_append_singleton {α : Type} [DecidableEq α]
    (l : List α) (x : α) :
    firstOccurrences (l ++ [x])
      = if x ∈ l then firstOccurrences l
        else firstOccurrences l ++ [x] := by
  induction l with
  | nil => simp [firstOccurrences]
  | cons a t ih =>
      have hstep : firstOccurrences ((a :: t) ++ [x])
          = a :: (firstOccurrences (t ++ [x])).filter (fun y => y != a) := rfl
      rw [hstep, ih]
      by_cases hxt : x ∈ t
      · rw [if_pos hxt, if_pos (List.mem_cons_of_mem a hxt)]
        rfl
      · rw [if_neg hxt]
        by_cases hxa : x = a
        · subst hxa
          rw [if_pos (List.mem_cons_self x t), List.filter_append]
          simp [firstOccurrences]
        · rw [if_neg (by simp [hxa, hxt]), List.filter_append]
          simp [firstOccurrences, bne_iff_ne, hxa]

theorem countP_append_singleton {α : Type} (l : List α) (x : α)
    (p : α → Bool) :
    (l ++ [x]).countP p = l.countP p + if p x then 1 else 0 := by
  rw [List.countP_append]
  simp [List.countP_cons]

/-! ### C7: grouping by scent label -/

/-- The content of `scentMap` after processing the given (scent, isSuccess)
pairs: distinct labels in first-encounter order with their counts. -/
def canonicalScentMap (ps : List (String × Bool)) : List ScentEntry :=
  (firstOccurrences (ps.map Prod.fst)).map (fun lab =>
    ⟨lab, ps.countP (fun x => x.1 == lab),
      ps.countP (fun x => x.1 == lab && x.2),
      ps.countP (fun x => x.1 == lab && !x.2)⟩)

theorem bumpScent_canonical (ps : List (String × Bool)) (lab : String)
    (isS : Bool) :
    bumpScent (canonicalScentMap ps) lab isS
      = canonicalScentMap (ps ++ [(lab, isS)]) := by
  have hkeys : (ps ++ [(lab, isS)]).map Prod.fst = ps.map Prod.fst ++ [lab] := by
    rw [List.map_append]
    rfl
  have hanyT : lab ∈ ps.map Prod.fst →
      ((canonicalScentMap ps).any (fun e => e.scent == lab)) = true := by
    intro hm
    rw [List.any_eq_true]
    exact ⟨⟨lab, ps.countP (fun x => x.1 == lab),
        ps.countP (fun x => x.1 == lab && x.2),
        ps.countP (fun x => x.1 == lab && !x.2)⟩,
      List.mem_map.mpr ⟨lab, (mem_firstOccurrences _ _).mpr hm, rfl⟩,
      by simp⟩
  have hanyF : lab ∉ ps.map Prod.fst →
      ((canonicalScentMap ps).any (fun e => e.scent == lab)) = false := by
    intro hm
    rw [List.any_eq_false]
    intro e he
    obtain ⟨lab', hlab', rfl⟩ := List.mem_map.mp he
    simp only [beq_iff_eq]
    intro hcon
    exact hm ((mem_firstOccurrences _ _).mp (hcon ▸ hlab'))
  have hzero : lab ∉ ps.map Prod.fst →
      ∀ q : (String × Bool) → Bool,
        ps.countP (fun x => x.1 == lab && q x) = 0 := by
    intro hm q
    rw [List.countP_eq_zero]
    intro a ha
    simp only [Bool.and_eq_true, beq_iff_eq, not_and]
    intro hcon _
    exact hm (List.mem_map.mpr ⟨a, ha, hcon⟩)
  by_cases hmem : lab ∈ ps.map Prod.fst
  · unfold bumpScent
    rw [hanyT hmem]
    simp only [if_true]
    unfold canonicalScentMap
    rw [hkeys, firstOccurrences_append_singleton, if_pos hmem, List.map_map]
    apply List.map_congr_left
    intro lab' _
    simp only [Function.comp]
    by_cases hll : lab' = lab
    · subst hll
      rw [if_pos (by simp)]
      rw [countP_append_singleton, countP_append_singleton,
        countP_append_singleton]
      cases isS <;> simp
    · rw [if_neg (by simp [hll])]
      rw [countP_append_singleton, countP_append_singleton,
        countP_append_singleton]
      simp [Ne.symm hll]
  · unfold bumpScent
    rw [hanyF hmem]
    simp only [Bool.false_eq_true, if_false]
    unfold canonicalScentMap
    rw [hkeys, firstOccurrences_append_singleton, if_neg hmem, List.map_append,
      List.map_singleton]
    have hpart1 : (firstOccurrences (ps.map Prod.fst)).map (fun lab' =>
        (⟨lab', ps.countP (fun x => x.1 == lab'),
          ps.countP (fun x => x.1 == lab' && x.2),
          ps.countP (fun x => x.1 == lab' && !x.2)⟩ : ScentEntry))
        = (firstOccurrences (ps.map Prod.fst)).map (fun lab' =>
        (⟨lab', (ps ++ [(lab, isS)]).countP (fun x => x.1 == lab'),
          (ps ++ [(lab, isS)]).countP (fun x => x.1 == lab' && x.2),
          (ps ++ [(lab, isS)]).countP (fun x => x.1 == lab' && !x.2)⟩
          : ScentEntry)) := by
      apply List.map_congr_left
      intro lab' hlab'
      have hll : lab ≠ lab' := by
        intro hcon
        exact hmem (hcon ▸ (mem_firstOccurrences _ _).mp hlab')
      rw [countP_append_singleton, countP_append_singleton,
        countP_append_singleton]
      simp [hll]
    rw [← hpart1]
    have hpart2 : (⟨lab, 1, if isS then 1 else 0, if isS then 0 else 1⟩
        : ScentEntry)
        = ⟨lab, (ps ++ [(lab, isS)]).countP (fun x => x.1 == lab),
          (ps ++ [(lab, isS)]).countP (fun x => x.1 == lab && x.2),
          (ps ++ [(lab, isS)]).countP (fun x => x.1 == lab && !x.2)⟩ := by
      rw [countP_append_singleton, countP_append_singleton,
        countP_append_singleton]
      rw [List.countP_eq_zero.mpr, hzero hmem (fun x => x.2),
        hzero hmem (fun x => !x.2)]
      · cases isS <;> simp
      · intro a ha
        simp only [beq_iff_eq]
        intro hcon
        exact hmem (List.mem_map.mpr ⟨a, ha, hcon⟩)
    rw [← hpart2]

theorem aggStateOf_scentMap (parse : String → JsNum)
    (sessions : List Session) :
    (aggStateOf parse sessions).scentMap
      = canonicalScentMap (sessions.map (fun s =>
          (sessionScent s, isSuccessResult s.result))) := by
  induction sessions using List.reverseRecOn with
  | nil => rfl
  | append_singleton l s ih =>
      have hfold : aggStateOf parse (l ++ [s])
          = processStep parse (aggStateOf parse l) s := by
        unfold aggStateOf
        rw [List.foldl_append]
        rfl
      rw [hfold]
      show bumpScent (aggStateOf parse l).scentMap (sessionScent s)
          (isSuccessResult s.result) = _
      rw [ih, bumpScent_canonical, List.map_append]
      rfl

/-- C7: the aggregate view groups sessions by distinct scent label — sessions
with a missing label under the fixed unknown label — and reports, per group
in first-encounter order, the total/success/fail counts and the success rate
rounded to the nearest integer percent. -/
theorem scent_aggregation_spec :
    (∀ (parse : String → JsNum) (sessions : List Session),
      (processSessions parse sessions).scentStats
        = (firstOccurrences (sessions.map sessionScent)).map (fun lab =>
            ⟨lab,
              sessions.countP (fun s => sessionScent s == lab),
              sessions.countP (fun s => sessionScent s == lab
                && isSuccessResult s.result),
              sessions.countP (fun s => sessionScent s == lab
                && !(isSuccessResult s.result)),
              jsRound (((sessions.countP (fun s => sessionScent s == lab
                    && isSuccessResult s.result) : ℕ) : ℚ)
                / ((sessions.countP (fun s => sessionScent s == lab) : ℕ) : ℚ)
                * 100)⟩))
    ∧ ∀ (r : Option String) (di : String) (dg : Option DogRef)
        (co : String → Option JsVal),
        sessionScent ⟨r, di, dg, co, none⟩ = unknownScentLabel
        ∧ sessionScent ⟨r, di, dg, co, some ⟨none⟩⟩ = unknownScentLabel := by
  constructor
  · intro parse sessions
    cases hs : sessions with
    | nil => rfl
    | cons a t =>
        have hne : ((a :: t).isEmpty) = false := rfl
        have hstats : (processSessions parse (a :: t)).scentStats
            = (aggStateOf parse (a :: t)).scentMap.map (fun e =>
              (⟨e.scent, e.total, e.success, e.fail,
                if e.total ≠ 0 then
                  jsRound ((e.success : ℚ) / (e.total : ℚ) * 100)
                else 0⟩ : ScentStat)) := by
          simp [processSessions]
        rw [hstats, aggStateOf_scentMap]
        unfold canonicalScentMap
        have hkeys : ((a :: t).map (fun s =>
            (sessionScent s, isSuccessResult s.result))).map Prod.fst
            = (a :: t).map sessionScent := by
          rw [List.map_map]
          rfl
        rw [hkeys, List.map_map]
        apply List.map_congr_left
        intro lab hlab
        have hcnt : ∀ q : (String × Bool) → Bool,
            ((a :: t).map (fun s =>
              (sessionScent s, isSuccessResult s.result))).countP q
            = (a :: t).countP (fun s =>
                q (sessionScent s, isSuccessResult s.result)) := by
          intro q
          rw [List.countP_map]
          rfl
        have htotal_pos : 0 < ((a :: t).map (fun s =>
            (sessionScent s, isSuccessResult s.result))).countP
              (fun x => x.1 == lab) := by
          rw [List.countP_pos_iff]
          have hlab' := (mem_firstOccurrences _ _).mp hlab
          obtain ⟨s, hsmem, hseq⟩ := List.mem_map.mp hlab'
          exact ⟨(sessionScent s, isSuccessResult s.result),
            List.mem_map.mpr ⟨s, hsmem, rfl⟩, by simp [hseq]⟩
        simp only [Function.comp]
        rw [if_pos (by omega)]
        rw [hcnt, hcnt, hcnt]
  · intro r di dg co
    exact ⟨rfl, rfl⟩

/-! ### C8: per-condition series over exact values, sorted ascending -/

/-- The content of one key's `condMaps` map after processing the given
(extracted value, isSuccess) pairs: distinct observed values in
first-encounter order with their counts. -/
def canonicalCondMap (ps : List (Option ℚ × Bool)) : List CondEntry :=
  (firstOccurrences (ps.filterMap Prod.fst)).map (fun v =>
    ⟨v, ps.countP (fun x => x.1 == some v),
      ps.countP (fun x => x.1 == some v && x.2),
      ps.countP (fun x => x.1 == some v && !x.2)⟩)

theorem canonicalCondMap_append_none (ps : List (Option ℚ × Bool))
    (isS : Bool) :
    canonicalCondMap (ps ++ [(none, isS)]) = canonicalCondMap ps := by
  unfold canonicalCondMap
  rw [List.filterMap_append]
  have h1 : ([((none : Option ℚ), isS)]).filterMap Prod.fst = [] := rfl
  rw [h1, List.append_nil]
  apply List.map_congr_left
  intro v _
  rw [countP_append_singleton, countP_append_singleton,
    countP_append_singleton]
  simp

theorem bumpCond_canonical (ps : List (Option ℚ × Bool)) (v : ℚ)
    (isS : Bool) :
    bumpCond (canonicalCondMap ps) v isS
      = canonicalCondMap (ps ++ [(some v, isS)]) := by
  have hkeys : (ps ++ [(some v, isS)]).filterMap Prod.fst
      = ps.filterMap Prod.fst ++ [v] := by
    rw [List.filterMap_append]
    rfl
  have hanyT : v ∈ ps.filterMap Prod.fst →
      ((canonicalCondMap ps).any (fun e => e.value == v)) = true := by
    intro hm
    rw [List.any_eq_true]
    exact ⟨⟨v, ps.countP (fun x => x.1 == some v),
        ps.countP (fun x => x.1 == some v && x.2),
        ps.countP (fun x => x.1 == some v && !x.2)⟩,
      List.mem_map.mpr ⟨v, (mem_firstOccurrences _ _).mpr hm, rfl⟩,
      by simp⟩
  have hanyF : v ∉ ps.filterMap Prod.fst →
      ((canonicalCondMap ps).any (fun e => e.value == v)) = false := by
    intro hm
    rw [List.any_eq_false]
    intro e he
    obtain ⟨v', hv', rfl⟩ := List.mem_map.mp he
    simp only [beq_iff_eq]
    intro hcon
    exact hm ((mem_firstOccurrences _ _).mp (hcon ▸ hv'))
  have hzero : v ∉ ps.filterMap Prod.fst →
      ∀ q : (Option ℚ × Bool) → Bool,
        ps.countP (fun x => x.1 == some v && q x) = 0 := by
    intro hm q
    rw [List.countP_eq_zero]
    intro a ha
    simp only [Bool.and_eq_true, beq_iff_eq, not_and]
    intro hcon _
    exact hm (List.mem_filterMap.mpr ⟨a, ha, hcon⟩)
  by_cases hmem : v ∈ ps.filterMap Prod.fst
  · unfold bumpCond
    rw [hanyT hmem]
    simp only [if_true]
    unfold canonicalCondMap
    rw [hkeys, firstOccurrences_append_singleton, if_pos hmem, List.map_map]
    apply List.map_congr_left
    intro v' _
    simp only [Function.comp]
    by_cases hvv : v' = v
    · subst hvv
      rw [if_pos (by simp)]
      rw [countP_append_singleton, countP_append_singleton,
        countP_append_singleton]
      cases isS <;> simp
    · rw [if_neg (by simp [hvv])]
      rw [countP_append_singleton, countP_append_singleton,
        countP_append_singleton]
      simp [Ne.symm hvv]
  · unfold bumpCond
    rw [hanyF hmem]
    simp only [Bool.false_eq_true, if_false]
    unfold canonicalCondMap
    rw [hkeys, firstOccurrences_append_singleton, if_neg hmem,
      List.map_append, List.map_singleton]
    have hpart1 : (firstOccurrences (ps.filterMap Prod.fst)).map (fun v' =>
        (⟨v', ps.countP (fun x => x.1 == some v'),
          ps.countP (fun x => x.1 == some v' && x.2),
          ps.countP (fun x => x.1 == some v' && !x.2)⟩ : CondEntry))
        = (firstOccurrences (ps.filterMap Prod.fst)).map (fun v' =>
        (⟨v', (ps ++ [(some v, isS)]).countP (fun x => x.1 == some v'),
          (ps ++ [(some v, isS)]).countP (fun x => x.1 == some v' && x.2),
          (ps ++ [(some v, isS)]).countP (fun x => x.1 == some v' && !x.2)⟩
          : CondEntry)) := by
      apply List.map_congr_left
      intro v' hv'
      have hvv : v ≠ v' := by
        intro hcon
        exact hmem (hcon ▸ (mem_firstOccurrences _ _).mp hv')
      rw [countP_append_singleton, countP_append_singleton,
        countP_append_singleton]
      simp [hvv]
    rw [← hpart1]
    have hpart2 : (⟨v, 1, if isS then 1 else 0, if isS then 0 else 1⟩
        : CondEntry)
        = ⟨v, (ps ++ [(some v, isS)]).countP (fun x => x.1 == some v),
          (ps ++ [(some v, isS)]).countP (fun x => x.1 == some v && x.2),
          (ps ++ [(some v, isS)]).countP (fun x => x.1 == some v && !x.2)⟩ := by
      rw [countP_append_singleton, countP_append_singleton,
        countP_append_singleton]
      rw [List.countP_eq_zero.mpr, hzero hmem (fun x => x.2),
        hzero hmem (fun x => !x.2)]
      · cases isS <;> simp
      · intro a ha
        simp only [beq_iff_eq]
        intro hcon
        exact hmem (List.mem_filterMap.mpr ⟨a, ha, hcon⟩)
    rw [← hpart2]

theorem stepCond_canonical (parse : String → JsNum) (s : Session) (isS : Bool)
    (k : CondKey) (ps : List (Option ℚ × Bool)) :
    stepCond parse s isS k (canonicalCondMap ps)
      = canonicalCondMap (ps ++ [(getConditionValue parse s k.str, isS)]) := by
  unfold stepCond
  cases hv : getConditionValue parse s k.str with
  | none => rw [canonicalCondMap_append_none]
  | some v => exact bumpCond_canonical ps v isS

theorem aggStateOf_condMaps (parse : String → JsNum)
    (sessions : List Session) (k : CondKey) :
    (aggStateOf parse sessions).condMaps k
      = canonicalCondMap (sessions.map (fun s =>
          (getConditionValue parse s k.str, isSuccessResult s.result))) := by
  induction sessions using List.reverseRecOn with
  | nil => rfl
  | append_singleton l s ih =>
      have hfold : aggStateOf parse (l ++ [s])
          = processStep parse (aggStateOf parse l) s := by
        unfold aggStateOf
        rw [List.foldl_append]
        rfl
      rw [hfold]
      show stepCond parse s (isSuccessResult s.result) k
          ((aggStateOf parse l).condMaps k) = _
      rw [ih, stepCond_canonical, List.map_append]
      rfl

theorem pairwise_lt_of_pairwise_le_nodup (l : List SeriesPoint)
    (h1 : l.Pairwise (fun a b => a.value ≤ b.value))
    (h2 : (l.map SeriesPoint.value).Nodup) :
    l.Pairwise (fun a b => a.value < b.value) := by
  have h2' : l.Pairwise (fun a b => SeriesPoint.value a ≠ SeriesPoint.value b) :=
    List.pairwise_map.mp h2
  exact (h1.and h2').imp (fun {a b} h => lt_of_le_of_ne h.1 h.2)

/-- On a list with pairwise-distinct values, the stable descending-comparator
sort of the code and the spec's ascending sort agree. -/
theorem mergeSort_eq_insertionSort_of_nodup_values (l : List SeriesPoint)
    (hnd : (l.map SeriesPoint.value).Nodup) :
    l.mergeSort (fun a b => decide (a.value ≤ b.value))
      = List.insertionSort (fun a b => a.value ≤ b.value) l := by
  haveI : IsAntisymm SeriesPoint (fun a b => a.value < b.value) :=
    ⟨fun a b h1 h2 => absurd (lt_trans h1 h2) (lt_irrefl _)⟩
  haveI : IsTotal SeriesPoint (fun a b => a.value ≤ b.value) :=
    ⟨fun a b => le_total _ _⟩
  haveI : IsTrans SeriesPoint (fun a b => a.value ≤ b.value) :=
    ⟨fun a b c => le_trans⟩
  have hpm : List.Perm (l.mergeSort (fun a b => decide (a.value ≤ b.value))) l :=
    List.mergeSort_perm l _
  have hpi : List.Perm (List.insertionSort (fun a b => a.value ≤ b.value) l) l :=
    List.perm_insertionSort _ l
  have hm_le : (l.mergeSort (fun a b => decide (a.value ≤ b.value))).Pairwise
      (fun a b => a.value ≤ b.value) := by
    have h : (l.mergeSort (fun a b => decide (a.value ≤ b.value))).Pairwise
        (fun a b => decide (a.value ≤ b.value) = true) := by
      apply List.sorted_mergeSort
      · intro a b c hab hbc
        simp only [decide_eq_true_eq] at *
        exact le_trans hab hbc
      · intro a b
        simp only [Bool.or_eq_true, decide_eq_true_eq]
        exact le_total _ _
    exact h.imp (fun {a b} hab => by simpa using hab)
  have hi_le : (List.insertionSort (fun a b => a.value ≤ b.value) l).Pairwise
      (fun a b => a.value ≤ b.value) :=
    List.sorted_insertionSort _ l
  have hm_nd : ((l.mergeSort (fun a b => decide (a.value ≤ b.value))).map
      SeriesPoint.value).Nodup := ((hpm.map _).nodup_iff).mpr hnd
  have hi_nd : ((List.insertionSort (fun a b => a.value ≤ b.value) l).map
      SeriesPoint.value).Nodup := ((hpi.map _).nodup_iff).mpr hnd
  have hm_lt := pairwise_lt_of_pairwise_le_nodup _ hm_le hm_nd
  have hi_lt := pairwise_lt_of_pairwise_le_nodup _ hi_le hi_nd
  exact List.eq_of_perm_of_sorted (hpm.trans hpi.symm) hm_lt hi_lt

/-- Modelled from the spec (§4.5): per recognized condition key, group the
sessions by exact observed numeric value into total/success/fail and rounded
success rate, and sort the series ascending by value. -/
def specConditionSeries (parse : String → JsNum) (sessions : List Session)
    (k : CondKey) : List SeriesPoint :=
  List.insertionSort (fun a b => a.value ≤ b.value)
    ((firstOccurrences (sessions.filterMap
        (fun s => getConditionValue parse s k.str))).map (fun v =>
      ⟨v,
        sessions.countP (fun s => getConditionValue parse s k.str == some v),
        sessions.countP (fun s => getConditionValue parse s k.str == some v
          && isSuccessResult s.result),
        sessions.countP (fun s => getConditionValue parse s k.str == some v
          && !(isSuccessResult s.result)),
        jsRound (((sessions.countP (fun s =>
              getConditionValue parse s k.str == some v
              && isSuccessResult s.result) : ℕ) : ℚ)
          / ((sessions.countP (fun s =>
              getConditionValue parse s k.str == some v) : ℕ) : ℚ)
          * 100)⟩))

/-- C8: for each of the four recognized condition keys the aggregate view
groups sessions by exact observed value into total/success/fail with rounded
success rate, sorted ascending by value; and the traversal step reads no
condition key outside the recognized four. -/
theorem condition_series_spec :
    (∀ (parse : String → JsNum) (sessions : List Session) (k : CondKey),
      (processSessions parse sessions).conditionSeries k
        = specConditionSeries parse sessions k)
    ∧ ∀ (parse : String → JsNum) (st : AggState) (s : Session)
        (f : String → Option JsVal),
        (∀ k' : CondKey, f k'.str = s.conditions k'.str) →
        processStep parse st { s with conditions := f } = processStep parse st s := by
  constructor
  · intro parse sessions k
    cases hs : sessions with
    | nil => rfl
    | cons a t =>
        have hser : (processSessions parse (a :: t)).conditionSeries k
            = buildSeries ((aggStateOf parse (a :: t)).condMaps k) := by
          simp [processSessions]
        rw [hser, aggStateOf_condMaps]
        have hkeys : (((a :: t).map (fun s =>
            (getConditionValue parse s k.str,
              isSuccessResult s.result))).filterMap Prod.fst)
            = (a :: t).filterMap (fun s => getConditionValue parse s k.str) := by
          rw [List.filterMap_map]
          rfl
        have harr : (canonicalCondMap ((a :: t).map (fun s =>
            (getConditionValue parse s k.str, isSuccessResult s.result)))).map
            (fun e => (⟨e.value, e.total, e.success, e.fail,
              if e.total ≠ 0 then
                jsRound ((e.success : ℚ) / (e.total : ℚ) * 100)
              else 0⟩ : SeriesPoint))
            = (firstOccurrences ((a :: t).filterMap
                (fun s => getConditionValue parse s k.str))).map (fun v =>
              ⟨v,
                (a :: t).countP (fun s =>
                  getConditionValue parse s k.str == some v),
                (a :: t).countP (fun s =>
                  getConditionValue parse s k.str == some v
                  && isSuccessResult s.result),
                (a :: t).countP (fun s =>
                  getConditionValue parse s k.str == some v
                  && !(isSuccessResult s.result)),
                jsRound ((((a :: t).countP (fun s =>
                      getConditionValue parse s k.str == some v
                      && isSuccessResult s.result) : ℕ) : ℚ)
                  / (((a :: t).countP (fun s =>
                      getConditionValue parse s k.str == some v) : ℕ) : ℚ)
                  * 100)⟩) := by
          unfold canonicalCondMap
          rw [List.map_map, hkeys]
          apply List.map_congr_left
          intro v hv
          have hcnt : ∀ q : (Option ℚ × Bool) → Bool,
              ((a :: t).map (fun s =>
                (getConditionValue parse s k.str,
                  isSuccessResult s.result))).countP q
              = (a :: t).countP (fun s =>
                  q (getConditionValue parse s k.str,
                    isSuccessResult s.result)) := by
            intro q
            rw [List.countP_map]
            rfl
          have htotal_pos : 0 < ((a :: t).map (fun s =>
              (getConditionValue parse s k.str,
                isSuccessResult s.result))).countP
                (fun x => x.1 == some v) := by
            rw [List.countP_pos_iff]
            have hv' := (mem_firstOccurrences _ _).mp hv
            obtain ⟨s, hsmem, hseq⟩ := List.mem_filterMap.mp hv'
            exact ⟨(getConditionValue parse s k.str, isSuccessResult s.result),
              List.mem_map.mpr ⟨s, hsmem, rfl⟩, by simp [hseq]⟩
          simp only [Function.comp]
          rw [if_pos (by omega)]
          rw [hcnt, hcnt, hcnt]
        show buildSeries _ = specConditionSeries parse (a :: t) k
        unfold buildSeries specConditionSeries
        rw [harr]
        apply mergeSort_eq_insertionSort_of_nodup_values
        rw [List.map_map]
        have hid : (SeriesPoint.value ∘ fun v => (⟨v,
            (a :: t).countP (fun s =>
              getConditionValue parse s k.str == some v),
            (a :: t).countP (fun s =>
              getConditionValue parse s k.str == some v
              && isSuccessResult s.result),
            (a :: t).countP (fun s =>
              getConditionValue parse s k.str == some v
              && !(isSuccessResult s.result)),
            jsRound ((((a :: t).countP (fun s =>
                  getConditionValue parse s k.str == some v
                  && isSuccessResult s.result) : ℕ) : ℚ)
              / (((a :: t).countP (fun s =>
                  getConditionValue parse s k.str == some v) : ℕ) : ℚ)
              * 100)⟩ : SeriesPoint)) = id := rfl
        rw [hid, List.map_id]
        exact nodup_firstOccurrences _
  · intro parse st s f hf
    have hgc : ∀ k' : CondKey,
        getConditionValue parse { s with conditions := f } k'.str
          = getConditionValue parse s k'.str := by
      intro k'
      unfold getConditionValue
      rw [show ({ s with conditions := f } : Session).conditions k'.str
          = s.conditions k'.str from hf k']
    have hcond : (fun k => stepCond parse { s with conditions := f }
          (isSuccessResult s.result) k (st.condMaps k))
        = fun k => stepCond parse s (isSuccessResult s.result) k
            (st.condMaps k) := by
      funext k'
      unfold stepCond
      rw [hgc k']
    exact congrArg (fun g : CondKey → List CondEntry =>
      AggState.mk
        (bumpDog st.perDogMap (sessionDogId s) (sessionDogName s)
          (sessionDogCode s) (isSuccessResult s.result))
        (bumpScent st.scentMap (sessionScent s) (isSuccessResult s.result))
        g (st.totalSessions + 1)
        (if isSuccessResult s.result then st.totalSuccess + 1
          else st.totalSuccess)
        (if isSuccessResult s.result then st.totalFail
          else st.totalFail + 1)) hcond

/-- Witness for C8: the empty session list, and a step over a session whose
conditions mapping is altered only outside the four recognized keys. -/
theorem condition_series_spec_witness :
    (processSessions (fun _ => JsNum.nan) []).conditionSeries CondKey.temp
      = specConditionSeries (fun _ => JsNum.nan) [] CondKey.temp
    ∧ processStep (fun _ => JsNum.nan) initAggState
        { result := some "success", dog_id := "d", dogs := none,
          conditions := fun key => if key == "extra" then some JsVal.other
            else none,
          type := none }
      = processStep (fun _ => JsNum.nan) initAggState
        ⟨some "success", "d", none, fun _ => none, none⟩ :=
  ⟨condition_series_spec.1 (fun _ => JsNum.nan) [] CondKey.temp,
    condition_series_spec.2 (fun _ => JsNum.nan) initAggState
      ⟨some "success", "d", none, fun _ => none, none⟩
      (fun key => if key == "extra" then some JsVal.other else none)
      (fun k' => by cases k' <;> rfl)⟩
